import Mathlib

/-!
Verification development for the Shayak-Swasth medical-record platform.

Part 1 embeds the frontend API client (src/lib/api.ts) shallowly: the
fetch call and the JSON body parse are modelled as explicit outcomes, and
`request` / `uploadFile` / `uploadMedicalRecord` are translated from the
TypeScript line by line.

Part 2 models the backend agent pipeline (ingestion, insight, retrieval)
from the specification, since the backend source (backend/agents) is not
part of the frontend tree; every such definition carries a doc comment
starting with `Modelled from the spec:`.
-/

namespace Shayak

/-! ### Part 1: the API client (src/lib/api.ts) -/

/-- A parsed JSON response body, abstracted to the one field the client
reads: the optional `detail` string used for error messages. -/
structure JsonVal where
  detail : Option String
deriving DecidableEq, Repr

/-- The body of an HTTP response, as seen through `response.json()`:
either it parses to a JSON value, or the parse rejects with an `Error`
carrying a message. -/
inductive JsBody
  | unparseable (errMsg : String)
  | parsed (v : JsonVal)
deriving DecidableEq, Repr

/-- The outcome of the `fetch` call inside `ApiClient.request`:
either the promise rejects (with `some msg` when the thrown value is an
`Error` with that message, `none` when it is not an `Error`), or it
resolves to a response with an `ok` flag and a body. -/
inductive FetchOutcome
  | thrown (msg : Option String)
  | resp (ok : Bool) (body : JsBody)
deriving DecidableEq, Repr

/-- JavaScript `x || fallback` on an optional string operand: a missing
field and the empty string are both falsy. -/
def jsOrString (v : Option String) (fallback : String) : String :=
  match v with
  | some s => if s.isEmpty then fallback else s
  | none => fallback

/-- The value `ApiClient.request` resolves with: at most one of `data`
and `error` is set (the TypeScript returns `{ data }` or `{ error }`). -/
structure ApiResponse where
  data : Option JsonVal
  error : Option String
deriving DecidableEq, Repr

/-- Shallow embedding of `ApiClient.request` (src/lib/api.ts lines
37-60). The whole body sits in one `try`: a rejected `fetch` is caught
(`error.message` for an `Error`, `"Network error"` otherwise); a non-ok
response reads `detail` from the parsed body with fallback
`"Request failed"` (the inner `.catch` supplies that object when the body
does not parse); an ok response returns the parsed body as `data`, and if
its body fails to parse the thrown `SyntaxError` is caught by the same
outer catch, yielding an error with the parse message. -/
def request (o : FetchOutcome) : ApiResponse :=
  match o with
  | .thrown (some m) => ⟨none, some m⟩
  | .thrown none => ⟨none, some "Network error"⟩
  | .resp ok body =>
    if ok then
      match body with
      | .parsed v => ⟨some v, none⟩
      | .unparseable m => ⟨none, some m⟩
    else
      match body with
      | .parsed v => ⟨none, some (jsOrString v.detail "Request failed")⟩
      | .unparseable _ => ⟨none, some "Request failed"⟩

/-- A JavaScript primitive passed in `additionalData`, coerced by
`String(value)` when appended to `URLSearchParams`. -/
inductive JsPrim
  | str (s : String)
  | num (n : Int)
deriving DecidableEq, Repr

/-- JavaScript `String(value)` on the primitives we model. -/
def jsToString : JsPrim → String
  | .str s => s
  | .num n => toString n

/-- The Authorization header `uploadFile` attaches: present exactly when
`this.token` is truthy, i.e. non-null and non-empty. -/
def authHeaderOf (token : Option String) : Option String :=
  match token with
  | some t => if t.isEmpty then none else some ("Bearer " ++ t)
  | none => none

/-- The HTTP request `ApiClient.uploadFile` issues, abstracted to the
parts the client controls: method, endpoint, decoded query parameters,
optional Authorization header, and the multipart form entries (the file
is an opaque identifier). -/
structure UploadRequest where
  method : String
  endpoint : String
  queryParams : List (String × String)
  authHeader : Option String
  formEntries : List (String × Nat)
deriving DecidableEq, Repr

/-- Shallow embedding of `ApiClient.uploadFile` (src/lib/api.ts lines
84-120), describing the request it issues: a POST to the endpoint, with
`additionalData` entries appended to the URL query string via
`String(value)`, the file as the single FormData entry named `"file"`,
and a Bearer header exactly when the stored token is truthy. -/
def uploadFile (token : Option String) (endpoint : String) (file : Nat)
    (additionalData : Option (List (String × JsPrim))) : UploadRequest :=
  { method := "POST"
    endpoint := endpoint
    queryParams :=
      match additionalData with
      | some l => l.map (fun kv => (kv.1, jsToString kv.2))
      | none => []
    authHeader := authHeaderOf token
    formEntries := [("file", file)] }

/-- Shallow embedding of `ApiClient.uploadMedicalRecord` (src/lib/api.ts
lines 122-132): delegates to `uploadFile` with endpoint
`"/records/upload"` and `patient_id` / `title` as additional data. -/
def uploadMedicalRecord (token : Option String) (file : Nat)
    (patientId title : String) : UploadRequest :=
  uploadFile token "/records/upload" file
    (some [("patient_id", .str patientId), ("title", .str title)])

/-! ### Part 2: the agent pipeline, modelled from the specification

The backend (backend/agents per WARP.md) is not part of the frontend
source tree, so the pipeline is modelled from spec.md sections 3, 4 and 7.
External capabilities (storage, extraction, embedding, completion, task
queue) enter each operation as explicit outcome arguments. -/

/-- Modelled from the spec: the four Record statuses of section 3. -/
inductive RecordStatus
  | uploaded | processing | processed | failed
deriving DecidableEq, Repr

/-- Modelled from the spec: a Record row (section 3) — id, owning patient
id, title, mime type, optional storage reference, status, retry count and
an update timestamp. -/
structure Record where
  rid : Nat
  patientId : Nat
  title : String
  mimeType : String
  storageRef : Option Nat
  status : RecordStatus
  retryCount : Nat
  updatedAt : Nat
deriving DecidableEq, Repr

/-- Modelled from the spec: a Chunk row (section 3) — id, record id,
sequence index, text span, embedding vector and character length. -/
structure Chunk where
  cid : Nat
  recordId : Nat
  seqIndex : Nat
  text : String
  embedding : List ℚ
  charLen : Nat
deriving DecidableEq, Repr

/-- Modelled from the spec: an explicit AccessGrant from a caller
identity to a record (section 3). -/
structure AccessGrant where
  granteeId : Nat
  recordId : Nat
deriving DecidableEq, Repr

/-- Modelled from the spec: the closed role enumeration (section 9). -/
inductive Role
  | patient | doctor | manager | admin
deriving DecidableEq, Repr

/-- Modelled from the spec: a caller identity — user id, role, and the
patient profile id when the caller is a patient. -/
structure Caller where
  uid : Nat
  role : Role
  patientId : Option Nat
deriving DecidableEq, Repr

/-- Modelled from the spec: an immutable AuditEntry (section 3). -/
structure AuditEntry where
  actorId : Nat
  action : String
  recordId : Option Nat
  time : Nat
deriving DecidableEq, Repr

/-- Modelled from the spec: the persisted state the pipeline reads and
writes — patients, Record, Chunk, AccessGrant and AuditEntry tables,
plus the role-derived scopes of section 3 (a role granted read access to
a record independently of an explicit per-user grant). -/
structure DB where
  patients : List Nat
  records : List Record
  chunks : List Chunk
  grants : List AccessGrant
  roleScopes : List (Role × Nat)
  audit : List AuditEntry
deriving DecidableEq, Repr

/-- Modelled from the spec: the error taxonomy of section 7 plus the
ingestion-specific kinds of section 4.1. -/
inductive ErrKind
  | validationError
  | patientNotFound
  | recordNotFound
  | unsupportedMediaType
  | accessDenied
  | capabilityUnavailable
  | retryExhausted
deriving DecidableEq, Repr

/-- Lookup of a Record row by id (first match). -/
def findRecord (db : DB) (rid : Nat) : Option Record :=
  db.records.find? (fun r => r.rid == rid)

/-- The Chunk rows belonging to a record. -/
def chunksFor (db : DB) (rid : Nat) : List Chunk :=
  db.chunks.filter (fun ch => ch.recordId == rid)

/-- Modelled from the spec: the access-scope decision of sections 3 and
4.3 — patients implicitly access their own records; doctors, managers and
admins need an explicit grant or a role-derived scope. -/
def hasAccess (db : DB) (c : Caller) (rid : Nat) : Bool :=
  match c.role with
  | .patient =>
    match findRecord db rid with
    | some r => c.patientId == some r.patientId
    | none => false
  | _ =>
    db.grants.any (fun g => g.granteeId == c.uid && g.recordId == rid)
      || db.roleScopes.any (fun s => s.1 == c.role && s.2 == rid)

/-- Appends one AuditEntry (audit rows are never mutated or deleted). -/
def auditLog (db : DB) (actorId : Nat) (action : String)
    (rid : Option Nat) (now : Nat) : DB :=
  { db with audit := ⟨actorId, action, rid, now⟩ :: db.audit }

/-! ### Ingestion Stage (spec section 4.1) -/

/-- The outcome of the Storage Gateway `put` capability. -/
inductive StoreOutcome
  | stored (ref : Nat)
  | storeFailed
deriving DecidableEq, Repr

/-- Modelled from the spec: the mime-type allow-list of section 4.1
(pdf, common image types, plain text). -/
def allowedMime (m : String) : Bool :=
  m == "application/pdf" || m == "image/png" || m == "image/jpeg"
    || m == "text/plain"

/-- What one `ingest` call produces: the post state, the synchronous
response to the caller, the task-queue messages it published (keyed by
record id), and — when the task queue is unavailable — the degradation
the Insight Stage suffers instead of any synchronous fallback. -/
structure IngestResult where
  db : DB
  response : Except ErrKind Record
  scheduled : List Nat
  insightDegradation : Option ErrKind
deriving Repr

/-- Modelled from the spec: `ingest(caller, patientId, title, fileBytes,
mimeType)` of section 4.1. Validations first (patient exists, bytes
non-empty, mime allow-listed); then a Record row with status `uploaded`
is created inside one unit of work and the bytes are stored; on store
success the row keeps the storage reference, an AuditEntry is appended
and a processing task keyed by the record id is published (when the queue
is up — a missing queue degrades the Insight Stage as
`capabilityUnavailable` and never processes synchronously); on store
failure the row is marked `failed` and `capabilityUnavailable` is
surfaced to the caller, so no row with status `uploaded` and no storage
reference survives the call. -/
def ingest (db : DB) (c : Caller) (patientId : Nat) (title : String)
    (fileBytes : List Nat) (mimeType : String) (store : StoreOutcome)
    (queueUp : Bool) (now newRid : Nat) : IngestResult :=
  if db.patients.contains patientId then
    if fileBytes.isEmpty then
      ⟨db, .error .validationError, [], none⟩
    else if allowedMime mimeType then
      let created : Record :=
        ⟨newRid, patientId, title, mimeType, none, .uploaded, 0, now⟩
      match store with
      | .storeFailed =>
        let failedRec := { created with status := RecordStatus.failed }
        let db1 := auditLog { db with records := failedRec :: db.records }
          c.uid "ingest-store-failed" (some newRid) now
        ⟨db1, .error .capabilityUnavailable, [], none⟩
      | .stored ref =>
        let storedRec := { created with storageRef := some ref }
        let db1 := auditLog { db with records := storedRec :: db.records }
          c.uid "ingest" (some newRid) now
        if queueUp then ⟨db1, .ok storedRec, [newRid], none⟩
        else ⟨db1, .ok storedRec, [], some .capabilityUnavailable⟩
    else
      ⟨db, .error .unsupportedMediaType, [], none⟩
  else
    ⟨db, .error .patientNotFound, [], none⟩

/-! ### Insight Stage (spec section 4.2) -/

/-- The outcome of the Text Extraction capability. -/
inductive ExtractOutcome
  | extracted (text : String)
  | extractFailed
deriving DecidableEq, Repr

/-- Fixed-size splitting with a step between window starts; the fuel
argument bounds the recursion by the text length. -/
def splitPieces (size step : Nat) : Nat → List Char → List String
  | 0, _ => []
  | _, [] => []
  | fuel + 1, cs =>
    if cs.length ≤ size then [String.mk cs]
    else String.mk (cs.take size) :: splitPieces size step fuel (cs.drop step)

/-- Modelled from the spec: chunking with a fixed target size and a
configured overlap (section 4.2, hard cuts); empty text yields zero
chunks. -/
def chunkPieces (size overlap : Nat) (t : String) : List String :=
  splitPieces size (size - overlap) (t.length + 1) t.data

/-- Modelled from the spec: the Chunk rows one successful run produces —
each piece embedded by the Embedding Provider, sequence indices assigned
in order. -/
def buildChunks (rid : Nat) (embedOf : String → List ℚ)
    (pieces : List String) : List Chunk :=
  pieces.enum.map (fun p =>
    ⟨p.1, rid, p.1, p.2, embedOf p.2, p.2.length⟩)

/-- The chunk set a successful processing run with extracted text `t`
leaves for record `rid`. -/
def processedChunks (rid : Nat) (embedOf : String → List ℚ)
    (size overlap : Nat) (t : String) : List Chunk :=
  buildChunks rid embedOf (chunkPieces size overlap t)

/-- The capability outcomes of one processing attempt: whether the
storage fetch succeeded, the extraction outcome, whether the embedding
calls succeeded, the embedding function itself, and the clock. -/
structure RunSpec where
  fetchOk : Bool
  ext : ExtractOutcome
  embedOk : Bool
  embedOf : String → List ℚ
  now : Nat

/-- Whether an attempt with these capability outcomes succeeds. -/
def RunSpec.succeeds (s : RunSpec) : Bool :=
  s.fetchOk && s.embedOk
    && (match s.ext with | .extracted _ => true | .extractFailed => false)

/-- The text a successful attempt extracted (empty on failure paths;
only read when the attempt succeeds). -/
def RunSpec.textOf (s : RunSpec) : String :=
  match s.ext with
  | .extracted t => t
  | .extractFailed => ""

/-- Modelled from the spec: the failure bookkeeping of section 4.2 — the
record status is set to `failed` and its retry count incremented; chunks
are untouched (the delete/insert of step 5 is transactional). -/
def markFailed (db : DB) (rid now : Nat) : DB :=
  auditLog
    { db with records := db.records.map (fun x =>
        if x.rid = rid then
          { x with status := RecordStatus.failed,
                   retryCount := x.retryCount + 1, updatedAt := now }
        else x) }
    0 "process-failed" (some rid) now

/-- Modelled from the spec: `process(recordId)` of section 4.2. The
record must exist and not already be `processing` (the exclusive lease);
fetch, extraction and embedding failures take the failure bookkeeping
path; a successful run deletes every pre-existing chunk of the record and
inserts the freshly built set in one transaction, then sets the status to
`processed`. Extraction yielding empty text is a success with zero
chunks. -/
def process (db : DB) (rid : Nat) (size overlap : Nat) (s : RunSpec) : DB :=
  match findRecord db rid with
  | none => db
  | some r =>
    if r.status = RecordStatus.processing then db
    else if s.succeeds then
      match s.ext with
      | .extracted t =>
        let newChunks := processedChunks rid s.embedOf size overlap t
        auditLog
          { db with
            chunks := db.chunks.filter (fun ch => ch.recordId != rid)
              ++ newChunks,
            records := db.records.map (fun x =>
              if x.rid = rid then
                { x with status := RecordStatus.processed,
                         updatedAt := s.now }
              else x) }
          0 "process-succeeded" (some rid) s.now
      | .extractFailed => markFailed db rid s.now
    else markFailed db rid s.now

/-- A sequence of processing attempts on one record id. -/
def runAll (db : DB) (rid : Nat) (size overlap : Nat)
    (runs : List RunSpec) : DB :=
  runs.foldl (fun d s => process d rid size overlap s) db

/-- The last attempt of a sequence that succeeded, when any did. -/
def lastSuccess (runs : List RunSpec) : Option RunSpec :=
  (runs.filter RunSpec.succeeds).getLast?

/-- Modelled from the spec: the bounded-retry driver of section 4.2 — an
attempt is delivered only while the record exists, is not yet
`processed`, and its retry count is below the configured maximum;
exceeding the bound leaves the record `failed` permanently. -/
def runWithRetries (maxRetries : Nat) (db : DB) (rid : Nat)
    (size overlap : Nat) : List RunSpec → DB
  | [] => db
  | s :: rest =>
    match findRecord db rid with
    | none => db
    | some r =>
      if r.status ≠ RecordStatus.processed ∧ r.retryCount < maxRetries then
        runWithRetries maxRetries (process db rid size overlap s) rid
          size overlap rest
      else db

/-- Modelled from the spec: the manual re-trigger of sections 4.2 and 8 —
it resets the attempt, i.e. the retry count returns to zero so processing
may run again. -/
def retrigger (db : DB) (rid : Nat) : DB :=
  { db with records := db.records.map (fun x =>
      if x.rid = rid then { x with retryCount := 0 } else x) }

/-! ### Retrieval Stage (spec section 4.3)

Cosine similarity of a candidate against the query is `dot / (‖c‖·‖q‖)`.
Comparisons are carried out on the rational data `(dot, ‖c‖²)` — the
square root never needs to be computed: for candidates the query norm
cancels, and both the pairwise comparison and the threshold test reduce
to sign analysis plus comparison of squares. -/

/-- Rational dot product, zero-padding the shorter vector. -/
def dotQ : List ℚ → List ℚ → ℚ
  | [], _ => 0
  | _, [] => 0
  | a :: as, b :: bs => a * b + dotQ as bs

/-- Squared euclidean norm. -/
def normSq (v : List ℚ) : ℚ := dotQ v v

/-- Decides `d1 / √n1 ≥ d2 / √n2` for non-negative `n1 n2` by sign
analysis and comparison of squares. -/
def cosGeB (d1 n1 d2 n2 : ℚ) : Bool :=
  if 0 ≤ d1 then
    if 0 ≤ d2 then d2 ^ 2 * n1 ≤ d1 ^ 2 * n2 else true
  else
    if 0 ≤ d2 then false else d1 ^ 2 * n2 ≤ d2 ^ 2 * n1

/-- A candidate chunk with its similarity data against the query: the
dot product with the query vector, the squared norm of its own embedding,
and the update time of its record (the recency tie-breaker). -/
structure ScoredChunk where
  chunk : Chunk
  dot : ℚ
  nrmSq : ℚ
  recUpdatedAt : Nat
deriving DecidableEq, Repr

/-- Modelled from the spec: the ranking order of section 4.3 — cosine
similarity descending, with equal scores ordered by most recent record
update time. -/
def rankGe (a b : ScoredChunk) : Bool :=
  let geAB := cosGeB a.dot a.nrmSq b.dot b.nrmSq
  let geBA := cosGeB b.dot b.nrmSq a.dot a.nrmSq
  (geAB && !geBA) || (geAB && geBA && decide (b.recUpdatedAt ≤ a.recUpdatedAt))

/-- Insertion into a ranked list. -/
def insertRanked (x : ScoredChunk) : List ScoredChunk → List ScoredChunk
  | [] => [x]
  | y :: ys => if rankGe x y then x :: y :: ys else y :: insertRanked x ys

/-- Insertion sort by the ranking order. -/
def sortRanked : List ScoredChunk → List ScoredChunk
  | [] => []
  | x :: xs => insertRanked x (sortRanked xs)

/-- Keeps the first (hence best-ranked) candidate of each record,
skipping records already seen. -/
def dedupByRecord : List ScoredChunk → List Nat → List ScoredChunk
  | [], _ => []
  | s :: rest, seen =>
    if seen.contains s.chunk.recordId then dedupByRecord rest seen
    else s :: dedupByRecord rest (s.chunk.recordId :: seen)

/-- Decides `dot / √(nrmSq·nq) ≥ tau`: the minimum-relevance test of
section 4.3, again by sign analysis and squares. -/
def aboveThreshold (tau nq : ℚ) (s : ScoredChunk) : Bool :=
  if 0 ≤ s.dot then
    if 0 ≤ tau then tau ^ 2 * (s.nrmSq * nq) ≤ s.dot ^ 2 else true
  else
    if 0 ≤ tau then false else s.dot ^ 2 ≤ tau ^ 2 * (s.nrmSq * nq)

/-- The update time of the record a chunk belongs to. -/
def recencyOf (db : DB) (rid : Nat) : Nat :=
  match findRecord db rid with
  | some r => r.updatedAt
  | none => 0

/-- Scores one candidate chunk against the query vector. -/
def scoreOf (db : DB) (queryVec : List ℚ) (ch : Chunk) : ScoredChunk :=
  ⟨ch, dotQ queryVec ch.embedding, normSq ch.embedding,
    recencyOf db ch.recordId⟩

/-- Modelled from the spec: `search(caller, query, topK)` of section 4.3.
The caller access filter runs on candidate chunks before any scoring or
ranking; the accessible candidates are scored by cosine similarity
against the query vector, ranked descending with recency tie-break,
deduplicated to the best chunk per record, filtered by the minimum
relevance threshold, and cut to `topK`. The query vector is the Embedding
Provider output for the query text. -/
def search (db : DB) (c : Caller) (queryVec : List ℚ) (topK : Nat)
    (tau : ℚ) : List ScoredChunk :=
  let accessible := db.chunks.filter (fun ch => hasAccess db c ch.recordId)
  let scored := accessible.map (scoreOf db queryVec)
  let ranked := sortRanked scored
  let deduped := dedupByRecord ranked []
  let kept := deduped.filter (aboveThreshold tau (normSq queryVec))
  kept.take topK

/-- The deterministic no-context reply of section 4.3. -/
def notEnoughInfo : String := "Not enough information"

/-- What one `ask` call produces: the post state (the audit row is
appended in every case), the answer or error, and whether each provider
capability was invoked. -/
structure AskResult where
  db : DB
  result : Except ErrKind String
  embedCalled : Bool
  completeCalled : Bool
deriving Repr

/-- Modelled from the spec: the bounded prompt of section 4.3, composed
from the selected context chunks plus the question. -/
def buildPrompt (question : String) (ctx : List ScoredChunk) : String :=
  String.intercalate "\n" (ctx.map (fun s => s.chunk.text)) ++ "\n" ++ question

/-- Modelled from the spec: `ask(caller, recordId, question)` of section
4.3. The authorization check precedes any retrieval or provider call and
a denial is audited; with access, the question is embedded and the record
chunks ranked; zero chunks yield the deterministic `notEnoughInfo` reply
without invoking the completion capability; otherwise the top context is
composed into a prompt and completed. -/
def ask (db : DB) (c : Caller) (rid : Nat) (question : String)
    (embedOf : String → List ℚ) (completeOf : String → String)
    (kCtx now : Nat) : AskResult :=
  if hasAccess db c rid then
    let own := chunksFor db rid
    if own.isEmpty then
      ⟨auditLog db c.uid "ask" (some rid) now, .ok notEnoughInfo,
        true, false⟩
    else
      let qv := embedOf question
      let ranked := sortRanked (own.map (scoreOf db qv))
      let answer := completeOf (buildPrompt question (ranked.take kCtx))
      ⟨auditLog db c.uid "ask" (some rid) now, .ok answer, true, true⟩
  else
    ⟨auditLog db c.uid "ask-denied" (some rid) now,
      .error .accessDenied, false, false⟩

/-! ### Sample inputs used by witnesses -/

/-- A sample record owned by patient 1. -/
def sampleRecord : Record :=
  ⟨1, 1, "Lab Report", "application/pdf", some 1, .uploaded, 0, 5⟩

/-- A sample database: one patient, one record, no chunks. -/
def sampleDB : DB := ⟨[1], [sampleRecord], [], [], [], []⟩

/-- A sample chunk of record 1. -/
def sampleChunk : Chunk := ⟨0, 1, 0, "hemoglobin normal", [1], 17⟩

/-- The sample database with one processed chunk. -/
def chunkDB : DB := ⟨[1], [sampleRecord], [sampleChunk], [], [], []⟩

/-- The patient owning record 1. -/
def samplePatient : Caller := ⟨1, .patient, some 1⟩

/-- A manager with no grants. -/
def sampleManager : Caller := ⟨10, .manager, none⟩

/-- A failing processing attempt. -/
def failRun : RunSpec := ⟨false, .extractFailed, false, fun _ => [1], 9⟩

/-- A succeeding processing attempt. -/
def okRun : RunSpec := ⟨true, .extracted "bp 120", true, fun _ => [1], 9⟩

/-! ### Theorems -/

/-- Claim C9, counterexample: an ok HTTP response whose body fails to
parse as JSON makes `request` resolve with `error` set (to the parse
failure message) and `data` unset, although the response is ok — refuting
the claim that `data` is set exactly when the response is ok and that
`error` is set only when fetch throws or the response is not ok. -/
theorem request_ok_unparseable_refutes :
    (request (FetchOutcome.resp true (JsBody.unparseable "bad json"))).data
      = none
  ∧ (request (FetchOutcome.resp true (JsBody.unparseable "bad json"))).error
      = some "bad json" :=
  ⟨rfl, rfl⟩

/-- Claim C9 (amended): `request` always resolves with an `ApiResponse`;
`error` is set exactly when the outcome is not an ok response with a
parseable body — carrying the thrown Error message, `"Network error"`
for a non-Error throw, the body `detail` field (falling back to
`"Request failed"` when the field is missing, empty or the body is
unparseable) for a non-ok response, and the parse failure message for an
ok response whose body does not parse; `data` is set exactly when the
response is ok and its body parses. -/
theorem request_error_data_spec (o : FetchOutcome) :
    ((request o).error.isSome
      ↔ ¬ ∃ v, o = FetchOutcome.resp true (JsBody.parsed v))
  ∧ ((request o).data.isSome
      ↔ ∃ v, o = FetchOutcome.resp true (JsBody.parsed v))
  ∧ (∀ m, o = FetchOutcome.thrown (some m) → (request o).error = some m)
  ∧ (o = FetchOutcome.thrown none
      → (request o).error = some "Network error")
  ∧ (∀ v, o = FetchOutcome.resp false (JsBody.parsed v)
      → (request o).error = some (jsOrString v.detail "Request failed"))
  ∧ (∀ m, o = FetchOutcome.resp false (JsBody.unparseable m)
      → (request o).error = some "Request failed")
  ∧ (∀ m, o = FetchOutcome.resp true (JsBody.unparseable m)
      → (request o).error = some m)
  ∧ (∀ v, o = FetchOutcome.resp true (JsBody.parsed v)
      → (request o).data = some v) := by
  rcases o with m | ⟨ok, body⟩
  · rcases m with _ | m <;> simp [request]
  · rcases ok with _ | _ <;> rcases body with m | v <;> simp [request]

/-- Witness for the amended claim C9 at a concrete thrown Error. -/
theorem request_error_data_spec_wit :
    (request (FetchOutcome.thrown (some "boom"))).error = some "boom" :=
  (request_error_data_spec (FetchOutcome.thrown (some "boom"))).2.2.1
    "boom" rfl

/-- Claim C10, counterexample: after `setToken("")` the stored token is
the empty string, which is falsy in JavaScript, so `uploadMedicalRecord`
issues its request without an Authorization header although a token has
been set — refuting the present-iff-set claim. -/
theorem uploadMedicalRecord_empty_token_refutes :
    (uploadMedicalRecord (some "") 7 "p1" "Lab Report").authHeader = none
  ∧ (some "" : Option String).isSome = true :=
  ⟨rfl, rfl⟩

/-- Claim C10 (amended): `uploadMedicalRecord(file, patientId, title)`
issues a POST to `/records/upload` with `patient_id` and `title` as URL
query parameters (string values passing through `String(value)`
unchanged), the file as the only FormData entry, named `"file"`, and an
`Authorization: Bearer` header present if and only if a non-empty token
has been set on the client. -/
theorem uploadMedicalRecord_request_spec (token : Option String)
    (file : Nat) (patientId title : String) :
    (uploadMedicalRecord token file patientId title).method = "POST"
  ∧ (uploadMedicalRecord token file patientId title).endpoint
      = "/records/upload"
  ∧ (uploadMedicalRecord token file patientId title).queryParams
      = [("patient_id", patientId), ("title", title)]
  ∧ (uploadMedicalRecord token file patientId title).formEntries
      = [("file", file)]
  ∧ ((uploadMedicalRecord token file patientId title).authHeader.isSome
      ↔ ∃ t, token = some t ∧ t ≠ "")
  ∧ (∀ t, token = some t → t ≠ "" →
      (uploadMedicalRecord token file patientId title).authHeader
        = some ("Bearer " ++ t)) := by
  refine ⟨rfl, rfl, rfl, rfl, ?_, ?_⟩
  · rcases token with _ | t
    · simp [uploadMedicalRecord, uploadFile, authHeaderOf]
    · by_cases h : t = ""
      · subst h
        simp [uploadMedicalRecord, uploadFile, authHeaderOf]
        decide
      · simp [uploadMedicalRecord, uploadFile, authHeaderOf,
          String.isEmpty_iff, h]
  · rintro t rfl ht
    simp [uploadMedicalRecord, uploadFile, authHeaderOf,
      String.isEmpty_iff, ht]

/-- Witness for the amended claim C10 at a concrete non-empty token. -/
theorem uploadMedicalRecord_request_spec_wit :
    (uploadMedicalRecord (some "tok") 3 "p9" "MRI").authHeader
      = some ("Bearer " ++ "tok") :=
  (uploadMedicalRecord_request_spec (some "tok") 3 "p9" "MRI").2.2.2.2.2
    "tok" rfl (by decide)

/-- Claim C2: when the Storage Gateway put fails during `ingest`, the
caller receives `capabilityUnavailable`, the record created inside the
unit of work ends marked `failed`, and no record with status `uploaded`
and no storage reference exists after the call (given none did before):
ingestion is atomic with respect to store failure. -/
theorem ingest_store_failure_atomic (db : DB) (c : Caller) (pid : Nat)
    (title : String) (bytes : List Nat) (mime : String) (queueUp : Bool)
    (now newRid : Nat)
    (hp : db.patients.contains pid = true)
    (hb : bytes.isEmpty = false)
    (hm : allowedMime mime = true)
    (horphan : ∀ r ∈ db.records,
      r.status = RecordStatus.uploaded → r.storageRef ≠ none) :
    (ingest db c pid title bytes mime .storeFailed queueUp now
        newRid).response = Except.error ErrKind.capabilityUnavailable
  ∧ (∃ r ∈ (ingest db c pid title bytes mime .storeFailed queueUp now
        newRid).db.records, r.rid = newRid ∧ r.status = RecordStatus.failed
        ∧ r.storageRef = none)
  ∧ (∀ r ∈ (ingest db c pid title bytes mime .storeFailed queueUp now
        newRid).db.records,
      r.status = RecordStatus.uploaded → r.storageRef ≠ none) := by
  simp only [ingest, hp, hb, hm, if_true, Bool.false_eq_true, if_false,
    auditLog]
  refine ⟨trivial, ⟨_, List.mem_cons_self _ _, rfl, rfl, rfl⟩, ?_⟩
  intro r hr hstat
  rcases List.mem_cons.mp hr with h | h
  · subst h
    simp_all
  · exact horphan r h hstat

/-- Witness for claim C2 at a concrete database and caller. -/
theorem ingest_store_failure_atomic_wit :
    (ingest sampleDB sampleManager 1 "Scan" [5] "text/plain" .storeFailed
      true 7 42).response = Except.error ErrKind.capabilityUnavailable :=
  (ingest_store_failure_atomic sampleDB sampleManager 1 "Scan" [5]
    "text/plain" true 7 42 (by decide) (by decide) (by decide)
    (by decide)).1

/-- Claim C8: a successful `ingest` returns the ok response to the
caller while the record is still in status `uploaded` with zero chunks —
processing has not run inside the call; it publishes exactly one task
keyed by the new record id when the queue is up, and a missing queue
yields no task plus a `capabilityUnavailable` degradation of the Insight
Stage instead of any synchronous fallback. -/
theorem ingest_schedules_async (db : DB) (c : Caller) (pid : Nat)
    (title : String) (bytes : List Nat) (mime : String) (ref : Nat)
    (queueUp : Bool) (now newRid : Nat)
    (hp : db.patients.contains pid = true)
    (hb : bytes.isEmpty = false)
    (hm : allowedMime mime = true)
    (hfresh : chunksFor db newRid = []) :
    (∃ r, (ingest db c pid title bytes mime (.stored ref) queueUp now
        newRid).response = Except.ok r ∧ r.rid = newRid
        ∧ r.status = RecordStatus.uploaded ∧ r.storageRef = some ref)
  ∧ (ingest db c pid title bytes mime (.stored ref) queueUp now
      newRid).scheduled = (if queueUp then [newRid] else [])
  ∧ chunksFor (ingest db c pid title bytes mime (.stored ref) queueUp now
      newRid).db newRid = []
  ∧ (∃ r, findRecord (ingest db c pid title bytes mime (.stored ref)
        queueUp now newRid).db newRid = some r
        ∧ r.status = RecordStatus.uploaded)
  ∧ (queueUp = false →
      (ingest db c pid title bytes mime (.stored ref) queueUp now
        newRid).insightDegradation = some ErrKind.capabilityUnavailable) := by
  rcases queueUp with _ | _ <;>
    simp only [ingest, hp, hb, hm, if_true, Bool.false_eq_true, if_false,
      auditLog] <;>
    refine ⟨⟨_, rfl, rfl, rfl, rfl⟩, trivial, ?_,
      ⟨⟨newRid, pid, title, mime, some ref, RecordStatus.uploaded, 0, now⟩,
        ?_, rfl⟩,
      by first | exact fun _ => trivial | exact fun h => nomatch h⟩ <;>
    first
      | (simpa only [chunksFor] using hfresh)
      | (simp [findRecord, List.find?])

/-- Witness for claim C8 at a concrete database with the queue down. -/
theorem ingest_schedules_async_wit :
    (ingest sampleDB sampleManager 1 "Scan" [5] "text/plain" (.stored 9)
      false 7 42).insightDegradation = some ErrKind.capabilityUnavailable :=
  (ingest_schedules_async sampleDB sampleManager 1 "Scan" [5] "text/plain"
    9 false 7 42 (by decide) (by decide) (by decide) (by decide)).2.2.2.2
    rfl

/-- Claim C6: with access granted, `ask` on a record with zero chunks
returns the deterministic not-enough-information result and never
invokes the completion capability. -/
theorem ask_no_chunks_deterministic (db : DB) (c : Caller) (rid : Nat)
    (question : String) (embedOf : String → List ℚ)
    (completeOf : String → String) (kCtx now : Nat)
    (hacc : hasAccess db c rid = true)
    (hempty : chunksFor db rid = []) :
    (ask db c rid question embedOf completeOf kCtx now).result
      = Except.ok notEnoughInfo
  ∧ (ask db c rid question embedOf completeOf kCtx now).completeCalled
      = false := by
  simp [ask, hacc, hempty]

/-- Witness for claim C6: the sample patient asks about an unprocessed
record of their own. -/
theorem ask_no_chunks_deterministic_wit :
    (ask sampleDB samplePatient 1 "What is the result" (fun _ => [1])
      (fun _ => "answer") 3 8).completeCalled = false :=
  (ask_no_chunks_deterministic sampleDB samplePatient 1
    "What is the result" (fun _ => [1]) (fun _ => "answer") 3 8
    (by decide) (by decide)).2

/-- Claim C7: when the caller lacks access to the record, `ask` fails
with `accessDenied`, neither the embedding nor the completion capability
is invoked, and the denial is still audited. -/
theorem ask_denied_before_providers (db : DB) (c : Caller) (rid : Nat)
    (question : String) (embedOf : String → List ℚ)
    (completeOf : String → String) (kCtx now : Nat)
    (hacc : hasAccess db c rid = false) :
    (ask db c rid question embedOf completeOf kCtx now).result
      = Except.error ErrKind.accessDenied
  ∧ (ask db c rid question embedOf completeOf kCtx now).embedCalled = false
  ∧ (ask db c rid question embedOf completeOf kCtx now).completeCalled
      = false
  ∧ (ask db c rid question embedOf completeOf kCtx now).db.audit
      = ⟨c.uid, "ask-denied", some rid, now⟩ :: db.audit := by
  simp [ask, hacc, auditLog]

/-- Witness for claim C7: a manager with no grant is denied. -/
theorem ask_denied_before_providers_wit :
    (ask sampleDB sampleManager 1 "What is the result" (fun _ => [1])
      (fun _ => "answer") 3 8).result
      = Except.error ErrKind.accessDenied :=
  (ask_denied_before_providers sampleDB sampleManager 1
    "What is the result" (fun _ => [1]) (fun _ => "answer") 3 8
    (by decide)).1

/-! ### Insight Stage lemmas -/

theorem findRecord_rid (db : DB) (rid : Nat) (r : Record)
    (h : findRecord db rid = some r) : r.rid = rid := by
  simpa using List.find?_some h

theorem find?_rid_map (l : List Record) (rid : Nat) (g : Record → Record)
    (hg : ∀ x, (g x).rid = x.rid) :
    (l.map g).find? (fun x => x.rid == rid)
      = (l.find? (fun x => x.rid == rid)).map g := by
  induction l with
  | nil => rfl
  | cons a t ih =>
    simp only [List.map_cons, List.find?_cons, hg a]
    cases h : (a.rid == rid) <;> simp [h, ih]

theorem succRid (rid : Nat) (now : Nat) :
    ∀ x : Record, ((fun x => if x.rid = rid then
      { x with status := RecordStatus.processed, updatedAt := now }
      else x) x).rid = x.rid := by
  intro x
  by_cases h : x.rid = rid <;> simp [h]

theorem failRid (rid : Nat) (now : Nat) :
    ∀ x : Record, ((fun x => if x.rid = rid then
      { x with status := RecordStatus.failed,
               retryCount := x.retryCount + 1, updatedAt := now }
      else x) x).rid = x.rid := by
  intro x
  by_cases h : x.rid = rid <;> simp [h]

theorem process_success_record (db : DB) (rid size ov : Nat) (s : RunSpec)
    (r : Record) (hr : findRecord db rid = some r)
    (hst : r.status ≠ RecordStatus.processing)
    (hs : s.succeeds = true) :
    findRecord (process db rid size ov s) rid
      = some { r with status := RecordStatus.processed,
                      updatedAt := s.now } := by
  have hrid := findRecord_rid db rid r hr
  have hr' : db.records.find? (fun x => x.rid == rid) = some r := hr
  rcases hext : s.ext with t | _
  · simp only [process, hr, hext, hs, if_true]
    rw [if_neg hst]
    simp only [auditLog, findRecord]
    rw [find?_rid_map db.records rid _ (succRid rid s.now), hr']
    simp [hrid]
  · exfalso
    simp [RunSpec.succeeds, hext] at hs

theorem process_fail_record (db : DB) (rid size ov : Nat) (s : RunSpec)
    (r : Record) (hr : findRecord db rid = some r)
    (hst : r.status ≠ RecordStatus.processing)
    (hs : s.succeeds = false) :
    findRecord (process db rid size ov s) rid
      = some { r with status := RecordStatus.failed,
                      retryCount := r.retryCount + 1,
                      updatedAt := s.now } := by
  have hrid := findRecord_rid db rid r hr
  have hr' : db.records.find? (fun x => x.rid == rid) = some r := hr
  simp only [process, hr, hs]
  rw [if_neg hst]
  simp only [Bool.false_eq_true, if_false, markFailed, auditLog, findRecord]
  rw [find?_rid_map db.records rid _ (failRid rid s.now), hr']
  simp [hrid]

theorem process_record_keeps (db : DB) (rid size ov : Nat) (s : RunSpec)
    (r : Record) (hr : findRecord db rid = some r)
    (hst : r.status ≠ RecordStatus.processing) :
    ∃ r', findRecord (process db rid size ov s) rid = some r'
      ∧ r'.status ≠ RecordStatus.processing := by
  cases hs : s.succeeds
  · exact ⟨_, process_fail_record db rid size ov s r hr hst hs, by simp⟩
  · exact ⟨_, process_success_record db rid size ov s r hr hst hs, by simp⟩

theorem buildChunks_recordId (rid : Nat) (f : String → List ℚ)
    (ps : List String) : ∀ ch ∈ buildChunks rid f ps, ch.recordId = rid := by
  intro ch h
  simp only [buildChunks, List.mem_map] at h
  rcases h with ⟨p, _, rfl⟩
  rfl

theorem filter_ne_then_eq (rid : Nat) (l : List Chunk) :
    (l.filter (fun ch => ch.recordId != rid)).filter
      (fun ch => ch.recordId == rid) = [] := by
  rw [List.filter_filter]
  rw [List.filter_eq_nil_iff]
  intro a _
  cases h : (a.recordId == rid) <;> simp [h, bne]

theorem process_success_chunks (db : DB) (rid size ov : Nat) (s : RunSpec)
    (r : Record) (hr : findRecord db rid = some r)
    (hst : r.status ≠ RecordStatus.processing)
    (hs : s.succeeds = true) :
    chunksFor (process db rid size ov s) rid
      = processedChunks rid s.embedOf size ov s.textOf := by
  rcases hext : s.ext with t | _
  · simp only [process, hr, hext, hs, if_true]
    rw [if_neg hst]
    simp only [auditLog, chunksFor, List.filter_append]
    rw [filter_ne_then_eq]
    rw [List.filter_eq_self.mpr (by
      intro a ha
      have := buildChunks_recordId rid s.embedOf _ a ha
      simp [this])]
    simp [RunSpec.textOf, hext]
  · exfalso
    simp [RunSpec.succeeds, hext] at hs

theorem process_fail_chunks (db : DB) (rid size ov : Nat) (s : RunSpec)
    (r : Record) (hr : findRecord db rid = some r)
    (hst : r.status ≠ RecordStatus.processing)
    (hs : s.succeeds = false) :
    (process db rid size ov s).chunks = db.chunks := by
  simp only [process, hr, hs]
  rw [if_neg hst]
  simp [markFailed, auditLog]

theorem processedChunks_seq_nodup (rid : Nat) (f : String → List ℚ)
    (size ov : Nat) (t : String) :
    ((processedChunks rid f size ov t).map (fun ch => ch.seqIndex)).Nodup := by
  simp only [processedChunks, buildChunks, List.map_map]
  have hcomp : ((fun ch : Chunk => ch.seqIndex)
      ∘ fun p : Nat × String =>
        (⟨p.1, rid, p.1, p.2, f p.2, p.2.length⟩ : Chunk))
      = Prod.fst := rfl
  rw [hcomp, List.enum_map_fst]
  exact List.nodup_range _

theorem runAll_chunks (rid size ov : Nat) (runs : List RunSpec) :
    ∀ (db : DB) (r : Record), findRecord db rid = some r →
    r.status ≠ RecordStatus.processing →
    chunksFor (runAll db rid size ov runs) rid
      = (match lastSuccess runs with
         | some s => processedChunks rid s.embedOf size ov s.textOf
         | none => chunksFor db rid) := by
  induction runs with
  | nil =>
    intro db r hr hst
    simp [runAll, lastSuccess]
  | cons s rest ih =>
    intro db r hr hst
    have step : runAll db rid size ov (s :: rest)
        = runAll (process db rid size ov s) rid size ov rest := rfl
    obtain ⟨r1, hr1, hst1⟩ := process_record_keeps db rid size ov s r hr hst
    have ihres := ih (process db rid size ov s) r1 hr1 hst1
    rw [step, ihres]
    rcases hfs : rest.filter RunSpec.succeeds with _ | ⟨b, bs⟩
    · have hlr : lastSuccess rest = none := by simp [lastSuccess, hfs]
      cases hs : s.succeeds
      · have hcons : lastSuccess (s :: rest) = none := by
          simp [lastSuccess, List.filter_cons, hs, hfs]
        simp only [hlr, hcons]
        simp only [chunksFor,
          process_fail_chunks db rid size ov s r hr hst hs]
      · have hcons : lastSuccess (s :: rest) = some s := by
          simp [lastSuccess, List.filter_cons, hs, hfs]
        simp only [hlr, hcons]
        exact process_success_chunks db rid size ov s r hr hst hs
    · have hsome : ∃ s', lastSuccess rest = some s' := by
        rcases hx : (rest.filter RunSpec.succeeds).getLast? with _ | s'
        · rw [hfs] at hx
          rcases hy : (b :: bs).getLast? with _ | z
          · have := List.getLast?_isSome (l := b :: bs)
            rw [hy] at this
            simp at this
          · rw [hy] at hx
            exact absurd hx (by simp)
        · exact ⟨s', by simp [lastSuccess, hx]⟩
      obtain ⟨s', hs'⟩ := hsome
      have hcons : lastSuccess (s :: rest) = some s' := by
        have hs'' : (rest.filter RunSpec.succeeds).getLast? = some s' := hs'
        cases hs2 : s.succeeds
        · simpa [lastSuccess, List.filter_cons, hs2] using hs''
        · rw [hfs] at hs''
          simp [lastSuccess, List.filter_cons, hs2, hfs,
            List.getLast?_cons_cons, hs'']
      simp only [hs', hcons]

/-- Claim C3: any sequence of `process` invocations on one record id
leaves exactly the chunk set produced by the last successful run (with
the original chunks untouched when no run succeeded): reprocessing is
idempotent per record, and the persisted chunk set never contains
duplicated sequence indices. -/
theorem insight_reprocessing_idempotent (db : DB) (rid size ov : Nat)
    (runs : List RunSpec) (r : Record)
    (hr : findRecord db rid = some r)
    (hst : r.status ≠ RecordStatus.processing) :
    chunksFor (runAll db rid size ov runs) rid
      = (match lastSuccess runs with
         | some s => processedChunks rid s.embedOf size ov s.textOf
         | none => chunksFor db rid)
  ∧ (∀ s, lastSuccess runs = some s →
      ((chunksFor (runAll db rid size ov runs) rid).map
        (fun ch => ch.seqIndex)).Nodup) := by
  refine ⟨runAll_chunks rid size ov runs db r hr hst, ?_⟩
  intro s hs
  rw [runAll_chunks rid size ov runs db r hr hst]
  simp only [hs]
  exact processedChunks_seq_nodup rid s.embedOf size ov s.textOf

/-- Witness for claim C3: a failing run followed by a successful run on
the sample database. -/
theorem insight_reprocessing_idempotent_wit :
    chunksFor (runAll sampleDB 1 4 1 [failRun, okRun]) 1
      = (match lastSuccess [failRun, okRun] with
         | some s => processedChunks 1 s.embedOf 4 1 s.textOf
         | none => chunksFor sampleDB 1) :=
  (insight_reprocessing_idempotent sampleDB 1 4 1 [failRun, okRun]
    sampleRecord rfl (by decide)).1

theorem retrigger_record (db : DB) (rid : Nat) (r : Record)
    (hr : findRecord db rid = some r) :
    findRecord (retrigger db rid) rid = some { r with retryCount := 0 } := by
  have hrid := findRecord_rid db rid r hr
  have hr' : db.records.find? (fun x => x.rid == rid) = some r := hr
  simp only [retrigger, findRecord]
  rw [find?_rid_map db.records rid _
    (by intro x; by_cases h : x.rid = rid <;> simp [h]), hr']
  simp [hrid]

theorem runWithRetries_exhausts (maxR rid size ov : Nat)
    (runs : List RunSpec) :
    ∀ (db : DB) (r : Record), findRecord db rid = some r →
    (r.status = RecordStatus.uploaded ∨ r.status = RecordStatus.failed) →
    r.retryCount < maxR →
    (∀ s ∈ runs, s.succeeds = false) →
    maxR ≤ r.retryCount + runs.length →
    ∃ r', findRecord (runWithRetries maxR db rid size ov runs) rid
        = some r'
      ∧ r'.status = RecordStatus.failed ∧ r'.retryCount = maxR := by
  induction runs with
  | nil =>
    intro db r hr hst hrc hfail hlen
    simp only [List.length_nil, Nat.add_zero] at hlen
    omega
  | cons s rest ih =>
    intro db r hr hst hrc hfail hlen
    have hne : r.status ≠ RecordStatus.processed := by
      rcases hst with h | h <;> simp [h]
    have hnp : r.status ≠ RecordStatus.processing := by
      rcases hst with h | h <;> simp [h]
    have hstep : runWithRetries maxR db rid size ov (s :: rest)
        = runWithRetries maxR (process db rid size ov s) rid size ov rest := by
      simp only [runWithRetries, hr]
      rw [if_pos ⟨hne, hrc⟩]
    have hfr1 := process_fail_record db rid size ov s r hr hnp
      (hfail s (by simp))
    rw [hstep]
    by_cases hlt : r.retryCount + 1 < maxR
    · refine ih (process db rid size ov s) _ hfr1 (Or.inr rfl) hlt
        (fun x hx => hfail x (by simp [hx])) ?_
      show maxR ≤ r.retryCount + 1 + rest.length
      have hlen' : maxR ≤ r.retryCount + (rest.length + 1) := by
        simpa using hlen
      omega
    · have heq : r.retryCount + 1 = maxR := by omega
      rcases rest with _ | ⟨s2, rest2⟩
      · exact ⟨_, hfr1, rfl, heq⟩
      · have hstop : runWithRetries maxR (process db rid size ov s) rid
            size ov (s2 :: rest2) = process db rid size ov s := by
          simp only [runWithRetries, hfr1]
          rw [if_neg]
          intro h
          have h2 : r.retryCount + 1 < maxR := h.2
          omega
        rw [hstop]
        exact ⟨_, hfr1, rfl, heq⟩

/-- Claim C5: every failing processing attempt increments the retry
count and marks the record `failed`; with a configured maximum of
`maxR`, a record starting at retry count zero that keeps failing ends in
status `failed` with retry count exactly `maxR`, further deliveries are
refused (the record stays `failed` permanently), and a manual re-trigger
resets the attempt so that a subsequent successful run reaches
`processed`. -/
theorem insight_retry_bound (maxR : Nat) (db : DB) (rid size ov : Nat)
    (runs : List RunSpec) (r : Record)
    (hr : findRecord db rid = some r)
    (hst : r.status = RecordStatus.uploaded)
    (hrc : r.retryCount = 0)
    (hmax : 0 < maxR)
    (hfail : ∀ s ∈ runs, s.succeeds = false)
    (hlen : maxR ≤ runs.length) :
    ∃ r', findRecord (runWithRetries maxR db rid size ov runs) rid
        = some r'
      ∧ r'.status = RecordStatus.failed
      ∧ r'.retryCount = maxR
      ∧ (∀ more, runWithRetries maxR
            (runWithRetries maxR db rid size ov runs) rid size ov more
          = runWithRetries maxR db rid size ov runs)
      ∧ (∀ s2 : RunSpec, s2.succeeds = true →
          ∃ r2, findRecord (process
              (retrigger (runWithRetries maxR db rid size ov runs) rid)
              rid size ov s2) rid = some r2
            ∧ r2.status = RecordStatus.processed
            ∧ r2.retryCount = 0) := by
  obtain ⟨r', hfind, hstat, hcount⟩ :=
    runWithRetries_exhausts maxR rid size ov runs db r hr (Or.inl hst)
      (by omega) hfail (by omega)
  refine ⟨r', hfind, hstat, hcount, ?_, ?_⟩
  · intro more
    rcases more with _ | ⟨m, ms⟩
    · rfl
    · simp only [runWithRetries, hfind]
      rw [if_neg]
      intro h
      have h2 : r'.retryCount < maxR := h.2
      omega
  · intro s2 hs2
    have hret := retrigger_record _ rid r' hfind
    have hnp : ({ r' with retryCount := 0 } : Record).status
        ≠ RecordStatus.processing := by
      simp [hstat]
    exact ⟨_, process_success_record _ rid size ov s2 _ hret hnp hs2,
      rfl, rfl⟩

/-- Witness for claim C5: two failing attempts against a bound of two on
the sample database, then a successful re-trigger. -/
theorem insight_retry_bound_wit :
    ∃ r', findRecord (runWithRetries 2 sampleDB 1 4 1
        [failRun, failRun]) 1 = some r'
      ∧ r'.status = RecordStatus.failed
      ∧ r'.retryCount = 2
      ∧ (∀ more, runWithRetries 2
            (runWithRetries 2 sampleDB 1 4 1 [failRun, failRun]) 1 4 1 more
          = runWithRetries 2 sampleDB 1 4 1 [failRun, failRun])
      ∧ (∀ s2 : RunSpec, s2.succeeds = true →
          ∃ r2, findRecord (process
              (retrigger (runWithRetries 2 sampleDB 1 4 1
                [failRun, failRun]) 1) 1 4 1 s2) 1 = some r2
            ∧ r2.status = RecordStatus.processed
            ∧ r2.retryCount = 0) :=
  insight_retry_bound 2 sampleDB 1 4 1 [failRun, failRun] sampleRecord
    rfl rfl rfl (by decide) (by decide) (by decide)

/-! ### Retrieval Stage lemmas -/

theorem cosGeB_total (d1 n1 d2 n2 : ℚ) :
    cosGeB d1 n1 d2 n2 = true ∨ cosGeB d2 n2 d1 n1 = true := by
  rcases le_or_lt 0 d1 with h1 | h1 <;> rcases le_or_lt 0 d2 with h2 | h2
  · simp only [cosGeB, if_pos h1, if_pos h2, decide_eq_true_eq]
    exact le_total _ _
  · simp only [cosGeB, if_pos h1, if_neg (not_le.mpr h2)]
    exact Or.inl trivial
  · simp only [cosGeB, if_neg (not_le.mpr h1), if_pos h2]
    exact Or.inr trivial
  · simp only [cosGeB, if_neg (not_le.mpr h1), if_neg (not_le.mpr h2),
      decide_eq_true_eq]
    exact le_total _ _

theorem cosGeB_trans (d1 n1 d2 n2 d3 n3 : ℚ) (h1 : 0 < n1) (h2 : 0 < n2)
    (h3 : 0 < n3) (hab : cosGeB d1 n1 d2 n2 = true)
    (hbc : cosGeB d2 n2 d3 n3 = true) : cosGeB d1 n1 d3 n3 = true := by
  rcases le_or_lt 0 d1 with s1 | s1 <;> rcases le_or_lt 0 d2 with s2 | s2 <;>
    rcases le_or_lt 0 d3 with s3 | s3
  · simp only [cosGeB, if_pos s1, if_pos s2, if_pos s3,
      decide_eq_true_eq] at hab hbc ⊢
    nlinarith [mul_le_mul_of_nonneg_right hab h3.le,
      mul_le_mul_of_nonneg_right hbc h1.le, h2,
      mul_pos h1 h3, sq_nonneg d2]
  · simp only [cosGeB, if_pos s1, if_neg (not_le.mpr s3)]
  · simp only [cosGeB, if_neg (not_le.mpr s2), if_pos s3] at hbc
    cases hbc
  · simp only [cosGeB, if_pos s1, if_neg (not_le.mpr s3)]
  · simp only [cosGeB, if_neg (not_le.mpr s1), if_pos s2] at hab
    cases hab
  · simp only [cosGeB, if_neg (not_le.mpr s1), if_pos s2] at hab
    cases hab
  · simp only [cosGeB, if_neg (not_le.mpr s2), if_pos s3] at hbc
    cases hbc
  · simp only [cosGeB, if_neg (not_le.mpr s1), if_neg (not_le.mpr s2),
      if_neg (not_le.mpr s3), decide_eq_true_eq] at hab hbc ⊢
    nlinarith [mul_le_mul_of_nonneg_right hab h3.le,
      mul_le_mul_of_nonneg_right hbc h1.le, h2,
      mul_pos h1 h3, sq_nonneg d2]

theorem cosGeB_refl (d n : ℚ) : cosGeB d n d n = true := by
  rcases le_or_lt 0 d with h | h
  · simp [cosGeB, h]
  · simp [cosGeB, not_le.mpr h, le_refl]

theorem rankGe_refl (a : ScoredChunk) : rankGe a a = true := by
  simp [rankGe, cosGeB_refl]

theorem rankGe_total (a b : ScoredChunk) :
    rankGe a b = true ∨ rankGe b a = true := by
  cases hab : cosGeB a.dot a.nrmSq b.dot b.nrmSq <;>
    cases hba : cosGeB b.dot b.nrmSq a.dot a.nrmSq
  · rcases cosGeB_total a.dot a.nrmSq b.dot b.nrmSq with h | h <;>
      simp_all
  · exact Or.inr (by simp [rankGe, hab, hba])
  · exact Or.inl (by simp [rankGe, hab, hba])
  · rcases le_total b.recUpdatedAt a.recUpdatedAt with h | h
    · exact Or.inl (by simp [rankGe, hab, hba, h])
    · exact Or.inr (by simp [rankGe, hab, hba, h])

theorem rankGe_trans (a b c : ScoredChunk) (ha : 0 < a.nrmSq)
    (hb : 0 < b.nrmSq) (hc : 0 < c.nrmSq)
    (hab : rankGe a b = true) (hbc : rankGe b c = true) :
    rankGe a c = true := by
  simp only [rankGe, Bool.or_eq_true, Bool.and_eq_true,
    Bool.not_eq_true'] at hab hbc
  have gab : cosGeB a.dot a.nrmSq b.dot b.nrmSq = true := by
    rcases hab with ⟨h, _⟩ | ⟨⟨h, _⟩, _⟩ <;> exact h
  have gbc : cosGeB b.dot b.nrmSq c.dot c.nrmSq = true := by
    rcases hbc with ⟨h, _⟩ | ⟨⟨h, _⟩, _⟩ <;> exact h
  have gac := cosGeB_trans a.dot a.nrmSq b.dot b.nrmSq c.dot c.nrmSq
    ha hb hc gab gbc
  cases hgca : cosGeB c.dot c.nrmSq a.dot a.nrmSq
  · simp [rankGe, gac, hgca]
  · have gcb := cosGeB_trans c.dot c.nrmSq a.dot a.nrmSq b.dot b.nrmSq
      hc ha hb hgca gab
    have gba := cosGeB_trans b.dot b.nrmSq c.dot c.nrmSq a.dot a.nrmSq
      hb hc ha gbc hgca
    rcases hab with ⟨_, hfalse⟩ | ⟨⟨_, _⟩, hrab⟩
    · exact absurd gba (by simp [hfalse])
    · rcases hbc with ⟨_, hfalse⟩ | ⟨⟨_, _⟩, hrbc⟩
      · exact absurd gcb (by simp [hfalse])
      · have r1 : b.recUpdatedAt ≤ a.recUpdatedAt := of_decide_eq_true hrab
        have r2 : c.recUpdatedAt ≤ b.recUpdatedAt := of_decide_eq_true hrbc
        simp [rankGe, gac, hgca, le_trans r2 r1]

theorem mem_insertRanked (x : ScoredChunk) (l : List ScoredChunk)
    (a : ScoredChunk) : a ∈ insertRanked x l ↔ a = x ∨ a ∈ l := by
  induction l with
  | nil => simp [insertRanked]
  | cons y ys ih =>
    simp only [insertRanked]
    split
    · simp [List.mem_cons]
    · simp only [List.mem_cons, ih]
      tauto

theorem mem_sortRanked (l : List ScoredChunk) (a : ScoredChunk) :
    a ∈ sortRanked l ↔ a ∈ l := by
  induction l with
  | nil => simp [sortRanked]
  | cons x xs ih => simp [sortRanked, mem_insertRanked, ih]

theorem insertRanked_pairwise (x : ScoredChunk) (l : List ScoredChunk)
    (hx : 0 < x.nrmSq) (hl : ∀ y ∈ l, 0 < y.nrmSq)
    (hp : l.Pairwise (fun a b => rankGe a b = true)) :
    (insertRanked x l).Pairwise (fun a b => rankGe a b = true) := by
  induction l with
  | nil => simp [insertRanked]
  | cons y ys ih =>
    rcases List.pairwise_cons.mp hp with ⟨hy, hys⟩
    simp only [insertRanked]
    split
    case isTrue h =>
      refine List.pairwise_cons.mpr ⟨?_, hp⟩
      intro z hz
      rcases List.mem_cons.mp hz with rfl | hz'
      · exact h
      · exact rankGe_trans x y z hx (hl y (by simp))
          (hl z (by simp [hz'])) h (hy z hz')
    case isFalse h =>
      have hyx : rankGe y x = true := by
        rcases rankGe_total x y with h' | h'
        · exact absurd h' h
        · exact h'
      refine List.pairwise_cons.mpr
        ⟨?_, ih (fun z hz => hl z (by simp [hz])) hys⟩
      intro z hz
      rcases (mem_insertRanked x ys z).mp hz with rfl | hz'
      · exact hyx
      · exact hy z hz'

theorem sortRanked_pairwise (l : List ScoredChunk)
    (hl : ∀ y ∈ l, 0 < y.nrmSq) :
    (sortRanked l).Pairwise (fun a b => rankGe a b = true) := by
  induction l with
  | nil => simp [sortRanked]
  | cons x xs ih =>
    exact insertRanked_pairwise x (sortRanked xs) (hl x (by simp))
      (fun y hy => hl y (by simp [(mem_sortRanked xs y).mp hy]))
      (ih (fun y hy => hl y (by simp [hy])))

theorem dedup_subset (l : List ScoredChunk) :
    ∀ (seen : List Nat) (a : ScoredChunk),
    a ∈ dedupByRecord l seen → a ∈ l := by
  induction l with
  | nil => intro seen a h; simp [dedupByRecord] at h
  | cons s rest ih =>
    intro seen a h
    simp only [dedupByRecord] at h
    split at h
    · exact List.mem_cons_of_mem _ (ih seen a h)
    · rcases List.mem_cons.mp h with rfl | h'
      · simp
      · exact List.mem_cons_of_mem _ (ih _ a h')

theorem dedup_sublist (l : List ScoredChunk) :
    ∀ seen : List Nat, List.Sublist (dedupByRecord l seen) l := by
  induction l with
  | nil => intro seen; simp [dedupByRecord]
  | cons s rest ih =>
    intro seen
    simp only [dedupByRecord]
    split
    · exact (ih seen).cons s
    · exact (ih _).cons₂ s

theorem dedup_not_seen (l : List ScoredChunk) :
    ∀ (seen : List Nat) (a : ScoredChunk), a ∈ dedupByRecord l seen →
    seen.contains a.chunk.recordId = false := by
  induction l with
  | nil => intro seen a h; simp [dedupByRecord] at h
  | cons s rest ih =>
    intro seen a h
    simp only [dedupByRecord] at h
    split at h
    case isTrue hc => exact ih seen a h
    case isFalse hc =>
      rcases List.mem_cons.mp h with rfl | h'
      · simpa using hc
      · have hmore := ih _ a h'
        simp only [List.contains_cons, Bool.or_eq_false_iff] at hmore
        exact hmore.2

theorem dedup_pairwise_ne (l : List ScoredChunk) :
    ∀ seen : List Nat, (dedupByRecord l seen).Pairwise
      (fun a b => a.chunk.recordId ≠ b.chunk.recordId) := by
  induction l with
  | nil => intro seen; simp [dedupByRecord]
  | cons s rest ih =>
    intro seen
    simp only [dedupByRecord]
    split
    · exact ih seen
    · refine List.pairwise_cons.mpr ⟨?_, ih _⟩
      intro b hb heq
      have hns := dedup_not_seen rest _ b hb
      rw [← heq] at hns
      simp [List.contains_cons] at hns

theorem dedup_best (l : List ScoredChunk) :
    ∀ seen : List Nat, l.Pairwise (fun a b => rankGe a b = true) →
    ∀ a, a ∈ dedupByRecord l seen →
    ∀ y ∈ l, y.chunk.recordId = a.chunk.recordId →
    rankGe a y = true ∨ a = y := by
  induction l with
  | nil => intro seen _ a _ y hy; simp at hy
  | cons s rest ih =>
    intro seen hp a ha y hy hrec
    rcases List.pairwise_cons.mp hp with ⟨hs, hrest⟩
    simp only [dedupByRecord] at ha
    split at ha
    case isTrue hc =>
      rcases List.mem_cons.mp hy with rfl | hy'
      · exfalso
        have hnot := dedup_not_seen rest seen a ha
        rw [hrec] at hc
        rw [hnot] at hc
        cases hc
      · exact ih seen hrest a ha y hy' hrec
    case isFalse hc =>
      rcases List.mem_cons.mp ha with rfl | ha'
      · rcases List.mem_cons.mp hy with rfl | hy'
        · exact Or.inr rfl
        · exact Or.inl (hs y hy')
      · rcases List.mem_cons.mp hy with rfl | hy'
        · exfalso
          have hnot := dedup_not_seen rest _ a ha'
          rw [← hrec] at hnot
          simp [List.contains_cons] at hnot
        · exact ih _ hrest a ha' y hy' hrec

/-- Claim C1: every entry of the `search` result list arises from a
candidate chunk that passed the caller access filter before any scoring
or ranking; in particular its chunk belongs to an accessible record and
to the database — chunks of inaccessible records are never scored,
ranked or returned. -/
theorem search_access_scope (db : DB) (c : Caller) (qv : List ℚ)
    (topK : Nat) (tau : ℚ) :
    (search db c qv topK tau).all (fun s =>
      hasAccess db c s.chunk.recordId
      && decide (s.chunk ∈ db.chunks)
      && decide (s ∈ (db.chunks.filter
          (fun ch => hasAccess db c ch.recordId)).map (scoreOf db qv)))
      = true := by
  rw [List.all_eq_true]
  intro s hs
  have hs' := hs
  simp only [search] at hs'
  have h1 := List.mem_of_mem_take hs'
  have h2 := List.mem_of_mem_filter h1
  have h3 := dedup_subset _ _ _ h2
  have h4 := (mem_sortRanked _ _).mp h3
  simp only [Bool.and_eq_true, decide_eq_true_eq]
  rcases List.mem_map.mp h4 with ⟨ch, hch, heq⟩
  refine ⟨⟨?_, ?_⟩, h4⟩
  · rw [← heq]
    exact (List.mem_filter.mp hch).2
  · rw [← heq]
    exact (List.mem_filter.mp hch).1

/-- Claim C4: provided every stored embedding is a genuine (nonzero)
vector, the `search` result list is sorted by the ranking order (cosine
similarity descending, recency tie-break), contains at most one chunk
per record — the best-ranked one among all accessible candidate chunks
of that record — has at most `topK` entries, and every entry passes the
minimum relevance threshold (sub-threshold candidates are dropped). -/
theorem search_ranked_spec (db : DB) (c : Caller) (qv : List ℚ)
    (topK : Nat) (tau : ℚ)
    (hpos : ∀ ch ∈ db.chunks, 0 < normSq ch.embedding) :
    (search db c qv topK tau).Pairwise (fun a b => rankGe a b = true)
  ∧ (search db c qv topK tau).Pairwise
      (fun a b => a.chunk.recordId ≠ b.chunk.recordId)
  ∧ (search db c qv topK tau).length ≤ topK
  ∧ (∀ s ∈ search db c qv topK tau,
      aboveThreshold tau (normSq qv) s = true)
  ∧ (∀ s ∈ search db c qv topK tau, ∀ ch ∈ db.chunks,
      hasAccess db c ch.recordId = true →
      ch.recordId = s.chunk.recordId →
      rankGe s (scoreOf db qv ch) = true) := by
  have hscored : ∀ y ∈ (db.chunks.filter
      (fun ch => hasAccess db c ch.recordId)).map (scoreOf db qv),
      0 < y.nrmSq := by
    intro y hy
    rcases List.mem_map.mp hy with ⟨ch, hch, rfl⟩
    exact hpos ch (List.mem_of_mem_filter hch)
  have hranked := sortRanked_pairwise _ hscored
  have hsub : List.Sublist
      (((dedupByRecord (sortRanked ((db.chunks.filter
          (fun ch => hasAccess db c ch.recordId)).map (scoreOf db qv)))
        []).filter (aboveThreshold tau (normSq qv))).take topK)
      (sortRanked ((db.chunks.filter
          (fun ch => hasAccess db c ch.recordId)).map (scoreOf db qv))) :=
    ((List.take_sublist _ _).trans (List.filter_sublist _)).trans
      (dedup_sublist _ [])
  have hsubd : List.Sublist
      (((dedupByRecord (sortRanked ((db.chunks.filter
          (fun ch => hasAccess db c ch.recordId)).map (scoreOf db qv)))
        []).filter (aboveThreshold tau (normSq qv))).take topK)
      (dedupByRecord (sortRanked ((db.chunks.filter
          (fun ch => hasAccess db c ch.recordId)).map (scoreOf db qv)))
        []) :=
    (List.take_sublist _ _).trans (List.filter_sublist _)
  refine ⟨?_, ?_, ?_, ?_, ?_⟩
  · exact hranked.sublist hsub
  · exact (dedup_pairwise_ne _ []).sublist hsubd
  · exact List.length_take_le _ _
  · intro s hs
    simp only [search] at hs
    exact (List.mem_filter.mp (List.mem_of_mem_take hs)).2
  · intro s hs ch hch hacc hrec
    simp only [search] at hs
    have hsded := List.mem_of_mem_filter (List.mem_of_mem_take hs)
    have hy : scoreOf db qv ch ∈ sortRanked ((db.chunks.filter
        (fun ch => hasAccess db c ch.recordId)).map (scoreOf db qv)) :=
      (mem_sortRanked _ _).mpr
        (List.mem_map.mpr ⟨ch, List.mem_filter.mpr ⟨hch, hacc⟩, rfl⟩)
    rcases dedup_best _ [] hranked s hsded (scoreOf db qv ch) hy hrec
      with h | h
    · exact h
    · rw [h]
      exact rankGe_refl _

/-- Witness for claim C4: the sample search returns at most one result
with the nonzero-embedding hypothesis discharged concretely. -/
theorem search_ranked_spec_wit :
    (search chunkDB samplePatient [1] 1 0).length ≤ 1 :=
  (search_ranked_spec chunkDB samplePatient [1] 1 0 (by
    intro ch hch
    simp only [chunkDB] at hch
    rcases List.mem_singleton.mp hch with rfl
    norm_num [sampleChunk, normSq, dotQ])).2.2.1

/-! ### Faithfulness of the rational score comparisons

`cosGeB`, `rankGe` and `aboveThreshold` compute with squares of rational
data only; the next lemmas certify that they decide exactly the intended
real-valued cosine comparisons `d / sqrt n`. -/

theorem mul_sqrt_sq (x y : ℝ) (hy : 0 ≤ y) :
    (x * Real.sqrt y) * (x * Real.sqrt y) = x ^ 2 * y := by
  rw [show (x * Real.sqrt y) * (x * Real.sqrt y)
      = x ^ 2 * (Real.sqrt y * Real.sqrt y) from by ring,
    Real.mul_self_sqrt hy]

theorem cosGeB_correct (d1 n1 d2 n2 : ℚ) (h1 : 0 < n1) (h2 : 0 < n2) :
    cosGeB d1 n1 d2 n2 = true
      ↔ (d2 : ℝ) / Real.sqrt (n2 : ℝ) ≤ (d1 : ℝ) / Real.sqrt (n1 : ℝ) := by
  have hN1 : (0 : ℝ) < (n1 : ℝ) := by exact_mod_cast h1
  have hN2 : (0 : ℝ) < (n2 : ℝ) := by exact_mod_cast h2
  have hs1 : (0 : ℝ) < Real.sqrt (n1 : ℝ) := Real.sqrt_pos.mpr hN1
  have hs2 : (0 : ℝ) < Real.sqrt (n2 : ℝ) := Real.sqrt_pos.mpr hN2
  have hcross : ((d2 : ℝ) / Real.sqrt (n2 : ℝ)
        ≤ (d1 : ℝ) / Real.sqrt (n1 : ℝ))
      ↔ (d2 : ℝ) * Real.sqrt (n1 : ℝ) ≤ (d1 : ℝ) * Real.sqrt (n2 : ℝ) :=
    div_le_div_iff hs2 hs1
  rcases le_or_lt 0 d1 with hd1 | hd1 <;> rcases le_or_lt 0 d2 with hd2 | hd2
  · have hD1 : (0 : ℝ) ≤ (d1 : ℝ) := by exact_mod_cast hd1
    have hD2 : (0 : ℝ) ≤ (d2 : ℝ) := by exact_mod_cast hd2
    simp only [cosGeB, if_pos hd1, if_pos hd2, decide_eq_true_eq]
    rw [hcross,
      mul_self_le_mul_self_iff (mul_nonneg hD2 hs1.le) (mul_nonneg hD1 hs2.le),
      mul_sqrt_sq _ _ hN1.le, mul_sqrt_sq _ _ hN2.le]
    constructor
    · intro h; exact_mod_cast h
    · intro h; exact_mod_cast h
  · have hD1 : (0 : ℝ) ≤ (d1 : ℝ) := by exact_mod_cast hd1
    have hD2 : ((d2 : ℝ)) < 0 := by exact_mod_cast hd2
    simp only [cosGeB, if_pos hd1, if_neg (not_le.mpr hd2),
      eq_self_iff_true, true_iff]
    exact le_trans (le_of_lt (div_neg_of_neg_of_pos hD2 hs2))
      (div_nonneg hD1 hs1.le)
  · have hD1 : ((d1 : ℝ)) < 0 := by exact_mod_cast hd1
    have hD2 : (0 : ℝ) ≤ (d2 : ℝ) := by exact_mod_cast hd2
    simp only [cosGeB, if_neg (not_le.mpr hd1), if_pos hd2,
      Bool.false_eq_true, false_iff]
    exact not_le.mpr (lt_of_lt_of_le (div_neg_of_neg_of_pos hD1 hs1)
      (div_nonneg hD2 hs2.le))
  · have hD1 : ((d1 : ℝ)) < 0 := by exact_mod_cast hd1
    have hD2 : ((d2 : ℝ)) < 0 := by exact_mod_cast hd2
    simp only [cosGeB, if_neg (not_le.mpr hd1), if_neg (not_le.mpr hd2),
      decide_eq_true_eq]
    rw [hcross,
      show ((d2 : ℝ) * Real.sqrt (n1 : ℝ) ≤ (d1 : ℝ) * Real.sqrt (n2 : ℝ))
        ↔ (-(d1 : ℝ)) * Real.sqrt (n2 : ℝ) ≤ (-(d2 : ℝ)) * Real.sqrt (n1 : ℝ)
        from by constructor <;> intro h <;> linarith,
      mul_self_le_mul_self_iff (mul_nonneg (by linarith) hs2.le)
        (mul_nonneg (by linarith) hs1.le),
      mul_sqrt_sq _ _ hN2.le, mul_sqrt_sq _ _ hN1.le, neg_sq, neg_sq]
    constructor
    · intro h; exact_mod_cast h
    · intro h; exact_mod_cast h

theorem aboveThreshold_correct (tau nq : ℚ) (s : ScoredChunk)
    (hn : 0 < s.nrmSq) (hq : 0 < nq) :
    aboveThreshold tau nq s = true
      ↔ (tau : ℝ)
        ≤ (s.dot : ℝ) / Real.sqrt ((s.nrmSq : ℝ) * (nq : ℝ)) := by
  have hN : (0 : ℝ) < (s.nrmSq : ℝ) * (nq : ℝ) := by
    have h1 : (0 : ℝ) < (s.nrmSq : ℝ) := by exact_mod_cast hn
    have h2 : (0 : ℝ) < (nq : ℝ) := by exact_mod_cast hq
    exact mul_pos h1 h2
  have hsN : (0 : ℝ) < Real.sqrt ((s.nrmSq : ℝ) * (nq : ℝ)) :=
    Real.sqrt_pos.mpr hN
  have hdiv : ((tau : ℝ)
        ≤ (s.dot : ℝ) / Real.sqrt ((s.nrmSq : ℝ) * (nq : ℝ)))
      ↔ (tau : ℝ) * Real.sqrt ((s.nrmSq : ℝ) * (nq : ℝ)) ≤ (s.dot : ℝ) :=
    le_div_iff hsN
  rcases le_or_lt 0 s.dot with hd | hd <;> rcases le_or_lt 0 tau with ht | ht
  · have hD : (0 : ℝ) ≤ (s.dot : ℝ) := by exact_mod_cast hd
    have hT : (0 : ℝ) ≤ (tau : ℝ) := by exact_mod_cast ht
    simp only [aboveThreshold, if_pos hd, if_pos ht, decide_eq_true_eq]
    rw [hdiv,
      mul_self_le_mul_self_iff (mul_nonneg hT hsN.le) hD,
      mul_sqrt_sq _ _ hN.le, ← pow_two]
    constructor
    · intro h
      have h' : (tau : ℝ) ^ 2 * ((s.nrmSq : ℝ) * (nq : ℝ))
          ≤ (s.dot : ℝ) ^ 2 := by exact_mod_cast h
      linarith
    · intro h
      have h' : (tau : ℝ) ^ 2 * ((s.nrmSq : ℝ) * (nq : ℝ))
          ≤ (s.dot : ℝ) ^ 2 := by linarith
      exact_mod_cast h'
  · have hD : (0 : ℝ) ≤ (s.dot : ℝ) := by exact_mod_cast hd
    have hT : ((tau : ℝ)) < 0 := by exact_mod_cast ht
    simp only [aboveThreshold, if_pos hd, if_neg (not_le.mpr ht),
      eq_self_iff_true, true_iff]
    exact le_trans hT.le (div_nonneg hD hsN.le)
  · have hD : ((s.dot : ℝ)) < 0 := by exact_mod_cast hd
    have hT : (0 : ℝ) ≤ (tau : ℝ) := by exact_mod_cast ht
    simp only [aboveThreshold, if_neg (not_le.mpr hd), if_pos ht,
      Bool.false_eq_true, false_iff]
    exact not_le.mpr (lt_of_lt_of_le (div_neg_of_neg_of_pos hD hsN) hT)
  · have hD : ((s.dot : ℝ)) < 0 := by exact_mod_cast hd
    have hT : ((tau : ℝ)) < 0 := by exact_mod_cast ht
    simp only [aboveThreshold, if_neg (not_le.mpr hd),
      if_neg (not_le.mpr ht), decide_eq_true_eq]
    rw [hdiv,
      show ((tau : ℝ) * Real.sqrt ((s.nrmSq : ℝ) * (nq : ℝ)) ≤ (s.dot : ℝ))
        ↔ -(s.dot : ℝ) ≤ (-(tau : ℝ)) * Real.sqrt ((s.nrmSq : ℝ) * (nq : ℝ))
        from by constructor <;> intro h <;> linarith,
      mul_self_le_mul_self_iff (by linarith) (mul_nonneg (by linarith) hsN.le),
      mul_sqrt_sq _ _ hN.le, neg_sq,
      show (-(s.dot : ℝ)) * -(s.dot : ℝ) = (s.dot : ℝ) ^ 2 from by ring]
    constructor
    · intro h; exact_mod_cast h
    · intro h; exact_mod_cast h

theorem rankGe_correct (a b : ScoredChunk) (ha : 0 < a.nrmSq)
    (hb : 0 < b.nrmSq) :
    rankGe a b = true
      ↔ ((b.dot : ℝ) / Real.sqrt (b.nrmSq : ℝ)
          < (a.dot : ℝ) / Real.sqrt (a.nrmSq : ℝ)
        ∨ ((b.dot : ℝ) / Real.sqrt (b.nrmSq : ℝ)
            = (a.dot : ℝ) / Real.sqrt (a.nrmSq : ℝ)
          ∧ b.recUpdatedAt ≤ a.recUpdatedAt)) := by
  have hAB := cosGeB_correct a.dot a.nrmSq b.dot b.nrmSq ha hb
  have hBA := cosGeB_correct b.dot b.nrmSq a.dot a.nrmSq hb ha
  cases hab : cosGeB a.dot a.nrmSq b.dot b.nrmSq <;>
    cases hba : cosGeB b.dot b.nrmSq a.dot a.nrmSq
  · rcases cosGeB_total a.dot a.nrmSq b.dot b.nrmSq with h | h <;> simp_all
  · rw [hab] at hAB
    rw [hba] at hBA
    have h1 : ¬ ((b.dot : ℝ) / Real.sqrt (b.nrmSq : ℝ)
        ≤ (a.dot : ℝ) / Real.sqrt (a.nrmSq : ℝ)) := by simp [← hAB]
    simp only [rankGe, hab, hba, Bool.false_eq_true, Bool.and_eq_true,
      Bool.or_eq_true]
    constructor
    · intro h
      simp at h
    · intro h
      rcases h with h | ⟨h, _⟩
      · exact absurd h.le h1
      · exact absurd h.le h1
  · rw [hab] at hAB
    rw [hba] at hBA
    have h1 : (b.dot : ℝ) / Real.sqrt (b.nrmSq : ℝ)
        ≤ (a.dot : ℝ) / Real.sqrt (a.nrmSq : ℝ) := hAB.mp rfl
    have h2 : ¬ ((a.dot : ℝ) / Real.sqrt (a.nrmSq : ℝ)
        ≤ (b.dot : ℝ) / Real.sqrt (b.nrmSq : ℝ)) := by simp [← hBA]
    simp only [rankGe, hab, hba]
    constructor
    · intro _
      exact Or.inl (lt_of_le_not_le h1 h2)
    · intro _
      rfl
  · rw [hab] at hAB
    rw [hba] at hBA
    have h1 : (b.dot : ℝ) / Real.sqrt (b.nrmSq : ℝ)
        ≤ (a.dot : ℝ) / Real.sqrt (a.nrmSq : ℝ) := hAB.mp rfl
    have h2 : (a.dot : ℝ) / Real.sqrt (a.nrmSq : ℝ)
        ≤ (b.dot : ℝ) / Real.sqrt (b.nrmSq : ℝ) := hBA.mp rfl
    have heq := le_antisymm h1 h2
    simp only [rankGe, hab, hba, Bool.true_and, Bool.not_true,
      Bool.and_false, Bool.false_or, Bool.and_true, decide_eq_true_eq]
    constructor
    · intro h
      exact Or.inr ⟨heq, h⟩
    · intro h
      rcases h with h | ⟨_, h⟩
      · exact absurd heq (ne_of_lt h)
      · exact h

end Shayak
